import Mathlib

/-!
Shallow embedding, in exact rational arithmetic, of the WAMECU core of this
repository: the bias-to-probability law (`src/wamecu/utils.py` and
`src/wamecu/simulation.py`), the drift and draw simulators
(`src/wamecu/simulate.py`), the streaming estimators
(`src/wamecu/estimation.py`) and the rolling anomaly diagnostics
(`src/wamecu/anomaly.py`).

Floating-point values are modelled as rationals, `numpy` arrays as lists of
rationals, raised `ValueError`s as `Except.error` with a dedicated error kind,
and the seeded random generator as explicit input sequences.  Transcendental
functions (`log2`, the chi-square CDF, `sin`) are abstract parameters: the
claims settled here do not depend on their values.  Tests such as
`np.any(v < 0)` are rendered as the equivalent decidable proposition
`∃ x ∈ v, x < 0`.
-/

namespace WinBig

/-- Error kinds, one per distinct `ValueError` raised by the modelled code. -/
inductive Err where
  | betaLengthMismatch
  | negativeAdjustedMass
  | massCollapse
  | nOutcomesTooSmall
  | alphaOutOfRange
  | initLengthMismatch
  | obsOutOfBounds
  | nonpositiveVariances
  | nStepsNotPositive
  | clipOutOfRange
  | negativeProbs
  | nTrialsNotPositive
  | shapeMismatch
  | nonpositiveExpected
  | empiricalNotNormalized
  | baselineNotNormalized
  | invalidBaseline
  | windowTooSmall
  | drawsTooShort
  deriving DecidableEq

/-- Mean of a list of rationals, as in `ndarray.mean()`. -/
def mean (l : List ℚ) : ℚ := l.sum / l.length

/-- Model of `np.clip x lo hi`: clamp `x` into `[lo, hi]`. -/
def clipTo (lo hi x : ℚ) : ℚ := min hi (max lo x)

/-- Model of `math.isclose a b` with defaults `rel_tol = 1e-9`, `abs_tol = 0`. -/
def mathIsclose (a b : ℚ) : Prop := |a - b| ≤ 1/1000000000 * max |a| |b|

instance (a b : ℚ) : Decidable (mathIsclose a b) := by
  unfold mathIsclose; exact inferInstance

/-- Model of `np.isclose a b` with defaults `rtol = 1e-5`, `atol = 1e-8`. -/
def npIsclose (a b : ℚ) : Prop := |a - b| ≤ 1/100000000 + 1/100000 * |b|

instance (a b : ℚ) : Decidable (npIsclose a b) := by
  unfold npIsclose; exact inferInstance

/-- Per-outcome adjusted masses `base_i * (1 + beta_i)` with `base_i = 1/n`,
as computed in `wamecu_probabilities` (`src/wamecu/utils.py`, lines 35-36). -/
def adjustedMasses (n : ℕ) (beta : List ℚ) : List ℚ :=
  beta.map (fun b => 1/(n:ℚ) * (1 + b))

/-- Model of `wamecu_probabilities` from `src/wamecu/utils.py`: validate the
length, reject negative adjusted mass and non-positive total mass, then always
renormalize by the total. -/
def wamecu_probabilities (n : ℕ) (beta : List ℚ) : Except Err (List ℚ) :=
  if beta.length ≠ n then .error .betaLengthMismatch
  else
    let adjusted := adjustedMasses n beta
    if ∃ a ∈ adjusted, a < 0 then .error .negativeAdjustedMass
    else
      let total := adjusted.sum
      if total ≤ 0 then .error .massCollapse
      else .ok (adjusted.map (fun a => a / total))

/-- Model of `wamecu_probabilities` from `src/wamecu/simulation.py`: identical
validation, but the final renormalization is skipped when the total is already
`math.isclose` to 1. -/
def wamecu_probabilities_sim (n : ℕ) (beta : List ℚ) : Except Err (List ℚ) :=
  if beta.length ≠ n then .error .betaLengthMismatch
  else
    let adjusted := adjustedMasses n beta
    if ∃ a ∈ adjusted, a < 0 then .error .negativeAdjustedMass
    else
      let total := adjusted.sum
      if total ≤ 0 then .error .massCollapse
      else if ¬ mathIsclose total 1 then .ok (adjusted.map (fun a => a / total))
      else .ok adjusted

/-- One-hot indicator vector of length `n` with a 1 at position `o`. -/
def oneHot (n o : ℕ) : List ℚ :=
  (List.range n).map (fun i => if i = o then 1 else 0)

/-- Loop of `ewma_estimator` (`src/wamecu/estimation.py`, lines 76-89): per
observation, bounds-check it, blend the one-hot indicator into the running
probability vector, floor at 1e-12, renormalize, derive beta, re-center and
clip to `[-0.99, 0.99]`; one emitted beta vector per observation. -/
def ewmaLoop (n : ℕ) (a : ℚ) : List ℕ → List ℚ → Except Err (List (List ℚ))
  | [], _ => .ok []
  | o :: rest, p =>
    if n ≤ o then .error .obsOutOfBounds
    else
      let p1 := List.zipWith (fun pi hi => (1 - a) * pi + a * hi) p (oneHot n o)
      let p2 := p1.map (fun x => max x (1/1000000000000))
      let p3 := p2.map (fun x => x / p2.sum)
      let beta := p3.map (fun x => x / (1/(n:ℚ)) - 1)
      let beta1 := beta.map (fun x => x - mean beta)
      let beta2 := beta1.map (clipTo (-(99/100)) (99/100))
      match ewmaLoop n a rest p3 with
      | .error e => .error e
      | .ok hs => .ok (beta2 :: hs)

/-- Model of `ewma_estimator` from `src/wamecu/estimation.py` (lines 48-89). -/
def ewma_estimator (observations : List ℕ) (n : ℕ) (a : ℚ)
    (initial_probabilities : Option (List ℚ)) : Except Err (List (List ℚ)) :=
  if n < 2 then .error .nOutcomesTooSmall
  else if ¬ (0 < a ∧ a ≤ 1) then .error .alphaOutOfRange
  else
    match initial_probabilities with
    | none => ewmaLoop n a observations (List.replicate n (1/(n:ℚ)))
    | some l =>
      if l.length ≠ n then .error .initLengthMismatch
      else ewmaLoop n a observations (l.map (fun x => x / l.sum))

/-- One iteration of the `kalman_tracker` loop (`src/wamecu/estimation.py`,
lines 122-136): bounds checking lives in the loop; this is the pure
predict-update-recenter-clip body mapping (state, covariance) to the next
(state, covariance). -/
def kalmanStep (n : ℕ) (q r : ℚ) (state cov : List ℚ) (o : ℕ) : List ℚ × List ℚ :=
  let baseline : ℚ := 1/(n:ℚ)
  let measurement := (List.range n).map (fun i => if i = o then 1 - baseline else -baseline)
  let predicted := cov.map (fun c => c + q)
  let gain := predicted.map (fun c => c / (c + r))
  let state1 := List.zipWith (fun s gm => s + gm) state
    (List.zipWith (fun g m => g * m) gain
      (List.zipWith (fun m s => m - s) measurement state))
  let cov2 := List.zipWith (fun g c => (1 - g) * c) gain predicted
  let state2 := state1.map (fun x => x - mean state1)
  let state3 := state2.map (clipTo (-(99/100)) (99/100))
  (state3, cov2)

/-- Loop of `kalman_tracker`, recording the (state, covariance) pair after
each full predict-update step. -/
def kalmanLoop (n : ℕ) (q r : ℚ) :
    List ℕ → List ℚ → List ℚ → Except Err (List (List ℚ × List ℚ))
  | [], _, _ => .ok []
  | o :: rest, state, cov =>
    if n ≤ o then .error .obsOutOfBounds
    else
      let sc := kalmanStep n q r state cov o
      match kalmanLoop n q r rest sc.1 sc.2 with
      | .error e => .error e
      | .ok t => .ok (sc :: t)

/-- Model of `kalman_tracker` from `src/wamecu/estimation.py` (lines 92-138),
instrumented to keep the covariance vector held after each step alongside the
emitted state vector. -/
def kalman_tracker_full (observations : List ℕ) (n : ℕ) (q r : ℚ)
    (initial_beta : Option (List ℚ)) : Except Err (List (List ℚ × List ℚ)) :=
  if n < 2 then .error .nOutcomesTooSmall
  else if q ≤ 0 ∨ r ≤ 0 then .error .nonpositiveVariances
  else
    match initial_beta with
    | none => kalmanLoop n q r observations (List.replicate n 0) (List.replicate n (1/4))
    | some l =>
      if l.length ≠ n then .error .initLengthMismatch
      else kalmanLoop n q r observations (l.map (clipTo (-(99/100)) (99/100)))
        (List.replicate n (1/4))

/-- Model of `kalman_tracker`: the returned history is the emitted state
(beta) vectors. -/
def kalman_tracker (observations : List ℕ) (n : ℕ) (q r : ℚ)
    (initial_beta : Option (List ℚ)) : Except Err (List (List ℚ)) :=
  (kalman_tracker_full observations n q r initial_beta).map (List.map Prod.fst)

/-- Covariance-history view of the same `kalman_tracker` run: the per-outcome
variance vector held after each full predict-then-update step. -/
def kalman_covariances (observations : List ℕ) (n : ℕ) (q r : ℚ)
    (initial_beta : Option (List ℚ)) : Except Err (List (List ℚ)) :=
  (kalman_tracker_full observations n q r initial_beta).map (List.map Prod.snd)

/-- Validation-and-renormalization prefix of `simulate_draws` from
`src/wamecu/simulate.py` (lines 104-124).  The trailing `rng.choice` sampling
call is random and not modelled.  The Bool in the result records whether the
silent renormalization `probs = probs / total` executed. -/
def simulate_draws_prep (probabilities : List ℚ) (n_trials : ℤ) :
    Except Err (List ℚ × Bool) :=
  if ∃ p ∈ probabilities, p < 0 then .error .negativeProbs
  else
    let total := probabilities.sum
    if ¬ npIsclose total 1 then
      let probs := probabilities.map (fun p => p / total)
      if n_trials ≤ 0 then .error .nTrialsNotPositive
      else .ok (probs, true)
    else
      if n_trials ≤ 0 then .error .nTrialsNotPositive
      else .ok (probabilities, false)

/-- Model of the dataclass `BetaDriftConfig` from `src/wamecu/simulate.py`.
The seed is carried but unused: the generator is abstracted by explicit
noise/sinusoid inputs. -/
structure BetaDriftConfig where
  n_steps : ℕ
  n_outcomes : ℕ
  walk_scale : ℚ
  sin_amplitude : ℚ
  sin_period : ℤ
  clip : ℚ
  seed : Option ℕ

/-- Model of `current[0] += s`: add `s` to the head of a list. -/
def addHead (s : ℚ) : List ℚ → List ℚ
  | [] => []
  | x :: xs => (x + s) :: xs

/-- One `beta_drift` step before clipping (`src/wamecu/simulate.py`, lines
67-75): add the Gaussian noise vector, subtract the per-step mean, then — when
the sinusoid is enabled — add the sinusoidal term to outcome 0.  The noise
vector and the value `sin_amplitude * sin(2*pi*t/sin_period + phase)` are
inputs, abstracting the seeded generator and the transcendental sine (whose
value always satisfies the bound `|sinus| ≤ |sin_amplitude|`). -/
def driftPre (cfg : BetaDriftConfig) (current noise : List ℚ) (sinus : ℚ) : List ℚ :=
  let c1 := List.zipWith (· + ·) current noise
  let c2 := c1.map (fun x => x - mean c1)
  if 0 < cfg.sin_period ∧ cfg.sin_amplitude ≠ 0 then addHead sinus c2 else c2

/-- Loop of `beta_drift`, recording each step's (pre-clip, post-clip) pair;
the first argument counts the remaining steps, the second is the absolute
step index `t`. -/
def driftAux (cfg : BetaDriftConfig) (noise : ℕ → List ℚ) (sinus : ℕ → ℚ) :
    ℕ → ℕ → List ℚ → List (List ℚ × List ℚ)
  | 0, _, _ => []
  | steps+1, t, current =>
    let pre := driftPre cfg current (noise t) (sinus t)
    let post := pre.map (clipTo (-cfg.clip) cfg.clip)
    (pre, post) :: driftAux cfg noise sinus steps (t+1) post

/-- Model of `beta_drift` from `src/wamecu/simulate.py` (lines 45-80),
instrumented to keep each step's pre-clip vector alongside the recorded
(post-clip) vector. -/
def beta_drift_trace (cfg : BetaDriftConfig) (noise : ℕ → List ℚ) (sinus : ℕ → ℚ) :
    Except Err (List (List ℚ × List ℚ)) :=
  if cfg.n_outcomes < 2 then .error .nOutcomesTooSmall
  else if cfg.n_steps = 0 then .error .nStepsNotPositive
  else if ¬ (0 < cfg.clip ∧ cfg.clip < 1) then .error .clipOutOfRange
  else .ok (driftAux cfg noise sinus cfg.n_steps 0 (List.replicate cfg.n_outcomes 0))

/-- Model of `beta_drift`: the returned series is the recorded post-clip
vectors of the instrumented run. -/
def beta_drift (cfg : BetaDriftConfig) (noise : ℕ → List ℚ) (sinus : ℕ → ℚ) :
    Except Err (List (List ℚ)) :=
  (beta_drift_trace cfg noise sinus).map (List.map Prod.snd)

/-- One row of the rolling diagnostics frame produced by
`rolling_anomaly_scores` (`src/wamecu/anomaly.py`, lines 74-81). -/
structure AnomalyRecord where
  step : ℕ
  chi2_stat : ℚ
  chi2_pvalue : ℚ
  entropy_gap : ℚ
  deriving DecidableEq

/-- Model of `chi_square_statistic` from `src/wamecu/anomaly.py` (lines
11-23).  The scipy chi-square CDF is an abstract parameter `chi2cdf`
(transcendental; the claims settled here do not depend on its values). -/
def chi_square_statistic (chi2cdf : ℚ → ℕ → ℚ) (observed expected : List ℚ) :
    Except Err (ℚ × ℚ) :=
  if observed.length ≠ expected.length then .error .shapeMismatch
  else if ∃ e ∈ expected, e ≤ 0 then .error .nonpositiveExpected
  else
    let stat := (List.zipWith (fun o e => (o - e)^2 / e) observed expected).sum
    .ok (stat, 1 - chi2cdf stat (observed.length - 1))

/-- Model of `entropy_gap` from `src/wamecu/anomaly.py` (lines 26-42); the
base-2 logarithm is an abstract parameter `log2`. -/
def entropy_gap (log2 : ℚ → ℚ) (empirical_prob baseline_prob : List ℚ) :
    Except Err ℚ :=
  if empirical_prob.length ≠ baseline_prob.length then .error .shapeMismatch
  else if ¬ npIsclose empirical_prob.sum 1 then .error .empiricalNotNormalized
  else if ¬ npIsclose baseline_prob.sum 1 then .error .baselineNotNormalized
  else
    let hE := -(((empirical_prob.filter (fun p => decide (0 < p))).map
      (fun p => p * log2 p)).sum)
    let hB := -(((baseline_prob.filter (fun p => decide (0 < p))).map
      (fun p => p * log2 p)).sum)
    .ok (hE - hB)

/-- Model of `np.bincount window minlength` as a list of rational counts: its
length is the larger of `minlength` and one past the largest value. -/
def bincount (minlength : ℕ) (window : List ℕ) : List ℚ :=
  (List.range (max minlength (window.foldr (fun d m => max (d+1) m) 0))).map
    (fun i => (window.count i : ℚ))

/-- Sequencing of an error-raising loop body over a list (a Python for loop
whose body may raise): stops at the first error, else collects the results. -/
def collectE {α β : Type} (f : α → Except Err β) : List α → Except Err (List β)
  | [] => .ok []
  | x :: xs =>
    match f x with
    | .error e => .error e
    | .ok b =>
      match collectE f xs with
      | .error e => .error e
      | .ok bs => .ok (b :: bs)

/-- Body of the rolling loop of `rolling_anomaly_scores` for window index `k`
(covering `draws[k : k + window_size]`, recorded at step `k + window_size - 1`,
written `window_size - 1 + k` below): bin the window, run the chi-square test
against `baseline * window_size`, and compute the entropy gap of
`counts / window_size` against the baseline. -/
def rollingBody (chi2cdf : ℚ → ℕ → ℚ) (log2 : ℚ → ℚ) (draws : List ℕ)
    (baseline : List ℚ) (window_size : ℕ) (k : ℕ) : Except Err AnomalyRecord :=
  let window := (draws.drop k).take window_size
  let counts := bincount baseline.length window
  let expected := baseline.map (fun b => b * (window_size : ℚ))
  match chi_square_statistic chi2cdf counts expected with
  | .error e => .error e
  | .ok sp =>
    match entropy_gap log2 (counts.map (fun c => c / (window_size : ℚ))) baseline with
    | .error e => .error e
    | .ok eg => .ok ⟨window_size - 1 + k, sp.1, sp.2, eg⟩

/-- Model of `rolling_anomaly_scores` from `src/wamecu/anomaly.py` (lines
45-83).  (The source computes `expected_counts` once before the loop; the
loop body recomputes the same pure value here.) -/
def rolling_anomaly_scores (chi2cdf : ℚ → ℕ → ℚ) (log2 : ℚ → ℚ)
    (draws : List ℕ) (baseline : List ℚ) (window_size : ℕ) :
    Except Err (List AnomalyRecord) :=
  if (∃ b ∈ baseline, b < 0) ∨ ¬ npIsclose baseline.sum 1 then
    .error .invalidBaseline
  else if window_size ≤ 1 then .error .windowTooSmall
  else if draws.length < window_size then .error .drawsTooShort
  else
    collectE (rollingBody chi2cdf log2 draws baseline window_size)
      (List.range (draws.length - window_size + 1))

/- ------------------------------------------------------------------ -/
/- Helper lemmas -/
/- ------------------------------------------------------------------ -/

theorem sum_map_div (l : List ℚ) (t : ℚ) : (l.map (fun a => a / t)).sum = l.sum / t := by
  induction l with
  | nil => simp
  | cons a l ih => simp [ih, add_div]

theorem getD_map_div (l : List ℚ) (t : ℚ) (i : ℕ) :
    (l.map (fun a => a / t)).getD i 0 = l.getD i 0 / t := by
  induction l generalizing i with
  | nil => simp
  | cons a l ih =>
    cases i with
    | zero => simp
    | succ j => simpa using ih j

theorem getD_nonneg (l : List ℚ) (i : ℕ) (h : ∀ x ∈ l, 0 ≤ x) : 0 ≤ l.getD i 0 := by
  induction l generalizing i with
  | nil => simp
  | cons a t ih =>
    cases i with
    | zero => simpa using h a (by simp)
    | succ j => simpa using ih j (fun x hx => h x (by simp [hx]))

theorem getD_le_sum (l : List ℚ) (i : ℕ) (h : ∀ x ∈ l, 0 ≤ x) : l.getD i 0 ≤ l.sum := by
  induction l generalizing i with
  | nil => simp
  | cons a t ih =>
    have ht : ∀ x ∈ t, 0 ≤ x := fun x hx => h x (by simp [hx])
    cases i with
    | zero =>
      have : (0:ℚ) ≤ t.sum := List.sum_nonneg ht
      simp only [List.getD_cons_zero, List.sum_cons]
      linarith
    | succ j =>
      have ha : (0:ℚ) ≤ a := h a (by simp)
      have := ih j ht
      simp only [List.getD_cons_succ, List.sum_cons]
      linarith

/-- Dividing a list by its sum yields sum 1 when the sum is nonzero. -/
theorem sum_div_self_sum (l : List ℚ) (h : l.sum ≠ 0) :
    (l.map (fun a => a / l.sum)).sum = 1 := by
  rw [sum_map_div, div_self h]

/-- If a positive total is `math.isclose` to 1 then it is within 2e-9 of 1. -/
theorem close_total_sub_one (total : ℚ) (hpos : 0 < total) (hc : mathIsclose total 1) :
    |total - 1| ≤ 2/1000000000 := by
  unfold mathIsclose at hc
  rcases le_or_lt total 1 with h | h
  · have hm : max |total| |(1:ℚ)| = 1 := by
      rw [abs_of_pos hpos, abs_one]
      exact max_eq_right h
    rw [hm, mul_one] at hc
    linarith
  · have hm : max |total| |(1:ℚ)| = total := by
      rw [abs_of_pos hpos, abs_one]
      exact max_eq_left h.le
    rw [hm] at hc
    have habs : |total - 1| = total - 1 := abs_of_pos (by linarith)
    rw [habs] at hc ⊢
    nlinarith

/-- Renormalizing an entry bounded by a total close to 1 moves it by at most
2e-9. -/
theorem renorm_entry_close (a total : ℚ) (h0 : 0 ≤ a) (h1 : a ≤ total)
    (hpos : 0 < total) (hc : mathIsclose total 1) :
    |a / total - a| ≤ 2/1000000000 := by
  have hb := close_total_sub_one total hpos hc
  have ht : a / total ≤ 1 := (div_le_one hpos).mpr h1
  have ht0 : 0 ≤ a / total := div_nonneg h0 hpos.le
  have hk : a / total - a = (a / total) * (1 - total) := by
    field_simp
    ring
  rw [hk, abs_mul, abs_of_nonneg ht0, abs_sub_comm]
  calc (a / total) * |total - 1| ≤ 1 * |total - 1| :=
        mul_le_mul_of_nonneg_right ht (abs_nonneg _)
    _ = |total - 1| := one_mul _
    _ ≤ 2/1000000000 := hb

theorem sum_map_sub_const (l : List ℚ) (m : ℚ) :
    (l.map (fun x => x - m)).sum = l.sum - l.length * m := by
  induction l with
  | nil => simp
  | cons a t ih =>
    simp [ih]
    ring

theorem sum_map_sub_mean (l : List ℚ) :
    (l.map (fun x => x - mean l)).sum = 0 := by
  rcases eq_or_ne l [] with rfl | h
  · simp
  · rw [sum_map_sub_const, mean]
    have hl : (l.length : ℚ) ≠ 0 := by
      simpa using h
    field_simp

theorem addHead_sum (s : ℚ) (l : List ℚ) (h : l ≠ []) :
    (addHead s l).sum = l.sum + s := by
  cases l with
  | nil => exact absurd rfl h
  | cons a t =>
    simp [addHead]
    ring

theorem addHead_length (s : ℚ) (l : List ℚ) : (addHead s l).length = l.length := by
  cases l <;> simp [addHead]

theorem clipTo_mem (lo hi x : ℚ) (h : lo ≤ hi) :
    lo ≤ clipTo lo hi x ∧ clipTo lo hi x ≤ hi :=
  ⟨le_min h (le_max_left lo x), min_le_left hi _⟩

theorem driftPre_sum (cfg : BetaDriftConfig) (cur noi : List ℚ) (s : ℚ)
    (hne : List.zipWith (· + ·) cur noi ≠ []) :
    (driftPre cfg cur noi s).sum =
      if 0 < cfg.sin_period ∧ cfg.sin_amplitude ≠ 0 then s else 0 := by
  unfold driftPre
  by_cases hcond : 0 < cfg.sin_period ∧ cfg.sin_amplitude ≠ 0
  · rw [if_pos hcond, if_pos hcond,
      addHead_sum _ _ (by simpa using hne), sum_map_sub_mean]
    ring
  · rw [if_neg hcond, if_neg hcond, sum_map_sub_mean]

theorem driftPre_length (cfg : BetaDriftConfig) (cur noi : List ℚ) (s : ℚ) :
    (driftPre cfg cur noi s).length = min cur.length noi.length := by
  unfold driftPre
  by_cases hcond : 0 < cfg.sin_period ∧ cfg.sin_amplitude ≠ 0 <;>
    simp [hcond, addHead_length]

theorem driftAux_succ (cfg : BetaDriftConfig) (noise : ℕ → List ℚ) (sinus : ℕ → ℚ)
    (k t : ℕ) (cur : List ℚ) :
    driftAux cfg noise sinus (k+1) t cur =
      (driftPre cfg cur (noise t) (sinus t),
        (driftPre cfg cur (noise t) (sinus t)).map (clipTo (-cfg.clip) cfg.clip)) ::
      driftAux cfg noise sinus k (t+1)
        ((driftPre cfg cur (noise t) (sinus t)).map (clipTo (-cfg.clip) cfg.clip)) := rfl

theorem driftAux_length (cfg : BetaDriftConfig) (noise : ℕ → List ℚ) (sinus : ℕ → ℚ) :
    ∀ (k t : ℕ) (cur : List ℚ), (driftAux cfg noise sinus k t cur).length = k := by
  intro k
  induction k with
  | zero => intro t cur; simp [driftAux]
  | succ k ih => intro t cur; rw [driftAux_succ]; simp [ih]

theorem driftAux_snd_mem (cfg : BetaDriftConfig) (noise : ℕ → List ℚ) (sinus : ℕ → ℚ) :
    ∀ (k t : ℕ) (cur : List ℚ) (pr : List ℚ × List ℚ),
      pr ∈ driftAux cfg noise sinus k t cur →
      ∃ pre : List ℚ, pr.2 = pre.map (clipTo (-cfg.clip) cfg.clip) := by
  intro k
  induction k with
  | zero =>
    intro t cur pr h
    simp [driftAux] at h
  | succ k ih =>
    intro t cur pr h
    rw [driftAux_succ, List.mem_cons] at h
    rcases h with rfl | h
    · exact ⟨_, rfl⟩
    · exact ih _ _ _ h

theorem driftAux_pre_sum (cfg : BetaDriftConfig) (noise : ℕ → List ℚ) (sinus : ℕ → ℚ)
    (hn : 2 ≤ cfg.n_outcomes)
    (hnoise : ∀ t, (noise t).length = cfg.n_outcomes) :
    ∀ (k t : ℕ) (cur : List ℚ), cur.length = cfg.n_outcomes →
      ∀ j, j < k →
        ((driftAux cfg noise sinus k t cur).getD j ([], [])).1.sum =
          (if 0 < cfg.sin_period ∧ cfg.sin_amplitude ≠ 0 then sinus (t + j) else 0) := by
  intro k
  induction k with
  | zero =>
    intro t cur _ j hj
    omega
  | succ k ih =>
    intro t cur hcur j hj
    have hzip : (List.zipWith (· + ·) cur (noise t)).length = cfg.n_outcomes := by
      simp [hcur, hnoise t]
    have hzipne : List.zipWith (· + ·) cur (noise t) ≠ [] := by
      intro hnil
      rw [hnil] at hzip
      simp at hzip
      omega
    have hprelen : (driftPre cfg cur (noise t) (sinus t)).length = cfg.n_outcomes := by
      rw [driftPre_length, hcur, hnoise t, min_self]
    cases j with
    | zero =>
      rw [driftAux_succ]
      simpa using driftPre_sum cfg cur (noise t) (sinus t) hzipne
    | succ j =>
      rw [driftAux_succ, List.getD_cons_succ]
      have hpost : ((driftPre cfg cur (noise t) (sinus t)).map
          (clipTo (-cfg.clip) cfg.clip)).length = cfg.n_outcomes := by
        simpa using hprelen
      have h2 := ih (t+1) _ hpost j (by omega)
      have ht : t + 1 + j = t + (j + 1) := by omega
      rw [ht] at h2
      exact h2

theorem mem_clip_map {x : ℚ} {l : List ℚ}
    (hx : x ∈ l.map (clipTo (-(99/100)) (99/100))) :
    -(99/100) ≤ x ∧ x ≤ 99/100 := by
  rcases List.mem_map.mp hx with ⟨y, _, rfl⟩
  exact clipTo_mem _ _ y (by norm_num)

theorem ewmaLoop_clip (n : ℕ) (a : ℚ) :
    ∀ (obs : List ℕ) (p : List ℚ) (H : List (List ℚ)),
      ewmaLoop n a obs p = .ok H →
      ∀ v ∈ H, ∃ b : List ℚ, v = b.map (clipTo (-(99/100)) (99/100)) := by
  intro obs
  induction obs with
  | nil =>
    intro p H h v hv
    simp only [ewmaLoop] at h
    obtain rfl := Except.ok.inj h
    simp at hv
  | cons o rest ih =>
    intro p H h v hv
    simp only [ewmaLoop] at h
    by_cases hb : n ≤ o
    · rw [if_pos hb] at h
      exact absurd h (by simp)
    · rw [if_neg hb] at h
      split at h
      · exact absurd h (by simp)
      case _ hs heq =>
        obtain rfl := Except.ok.inj h
        rcases List.mem_cons.mp hv with rfl | hv2
        · exact ⟨_, rfl⟩
        · exact ih _ _ heq v hv2

theorem ewma_estimator_ok_loop (obs : List ℕ) (n : ℕ) (a : ℚ)
    (init : Option (List ℚ)) (H : List (List ℚ))
    (h : ewma_estimator obs n a init = .ok H) :
    ∃ p0 : List ℚ, ewmaLoop n a obs p0 = .ok H := by
  unfold ewma_estimator at h
  by_cases c1 : n < 2
  · simp [c1] at h
  by_cases c2 : 0 < a ∧ a ≤ 1
  case neg => simp [c1, c2] at h
  cases init with
  | none => exact ⟨_, by simpa [c1, c2] using h⟩
  | some l =>
    by_cases c3 : l.length ≠ n
    · simp [c1, c2, c3] at h
    · exact ⟨_, by simpa [c1, c2, c3] using h⟩

theorem kalmanStep_fst_clip (n : ℕ) (q r : ℚ) (state cov : List ℚ) (o : ℕ) :
    ∃ b : List ℚ, (kalmanStep n q r state cov o).1 =
      b.map (clipTo (-(99/100)) (99/100)) :=
  ⟨_, rfl⟩

theorem kalmanLoop_clip (n : ℕ) (q r : ℚ) :
    ∀ (obs : List ℕ) (state cov : List ℚ) (T : List (List ℚ × List ℚ)),
      kalmanLoop n q r obs state cov = .ok T →
      ∀ pr ∈ T, ∃ b : List ℚ, pr.1 = b.map (clipTo (-(99/100)) (99/100)) := by
  intro obs
  induction obs with
  | nil =>
    intro state cov T h pr hpr
    simp only [kalmanLoop] at h
    obtain rfl := Except.ok.inj h
    simp at hpr
  | cons o rest ih =>
    intro state cov T h pr hpr
    simp only [kalmanLoop] at h
    by_cases hb : n ≤ o
    · rw [if_pos hb] at h
      exact absurd h (by simp)
    · rw [if_neg hb] at h
      split at h
      · exact absurd h (by simp)
      case _ t heq =>
        obtain rfl := Except.ok.inj h
        rcases List.mem_cons.mp hpr with rfl | hpr2
        · exact kalmanStep_fst_clip n q r state cov o
        · exact ih _ _ _ heq pr hpr2

theorem kalman_tracker_full_ok_loop (obs : List ℕ) (n : ℕ) (q r : ℚ)
    (init : Option (List ℚ)) (T : List (List ℚ × List ℚ))
    (h : kalman_tracker_full obs n q r init = .ok T) :
    ∃ s0 c0 : List ℚ, kalmanLoop n q r obs s0 c0 = .ok T := by
  unfold kalman_tracker_full at h
  by_cases c1 : n < 2
  · simp [c1] at h
  by_cases c2 : q ≤ 0 ∨ r ≤ 0
  · simp [c1, c2] at h
  cases init with
  | none => exact ⟨_, _, by simpa [c1, c2] using h⟩
  | some l =>
    by_cases c3 : l.length ≠ n
    · simp [c1, c2, c3] at h
    · exact ⟨_, _, by simpa [c1, c2, c3] using h⟩

theorem zipWith_map_both (f : ℚ → ℚ → ℚ) (g h : ℚ → ℚ) :
    ∀ l : List ℚ, List.zipWith f (l.map g) (l.map h) =
      l.map (fun x => f (g x) (h x)) := by
  intro l
  induction l with
  | nil => simp
  | cons a t ih => simp [ih]

theorem kalmanStep_snd (n : ℕ) (q r : ℚ) (state cov : List ℚ) (o : ℕ) :
    (kalmanStep n q r state cov o).2 =
      cov.map (fun c => (1 - (c + q) / ((c + q) + r)) * (c + q)) := by
  unfold kalmanStep
  simp only [List.map_map, zipWith_map_both]
  rfl

theorem forall₂_le_map (l : List ℚ) (f g : ℚ → ℚ) (h : ∀ x ∈ l, f x ≤ g x) :
    List.Forall₂ (· ≤ ·) (l.map f) (l.map g) := by
  induction l with
  | nil => simp
  | cons a t ih =>
    simp only [List.map_cons]
    exact List.Forall₂.cons (h a (by simp)) (ih (fun x hx => h x (by simp [hx])))

theorem foldr_max_le (n : ℕ) (w : List ℕ) (h : ∀ d ∈ w, d < n) :
    w.foldr (fun d m => max (d+1) m) 0 ≤ n := by
  induction w with
  | nil => simp
  | cons d t ih =>
    simp only [List.foldr_cons]
    have hd : d + 1 ≤ n := h d (by simp)
    have ht := ih (fun x hx => h x (by simp [hx]))
    omega

theorem bincount_eq (n : ℕ) (w : List ℕ) (h : ∀ d ∈ w, d < n) :
    bincount n w = (List.range n).map (fun i => (w.count i : ℚ)) := by
  unfold bincount
  rw [max_eq_left (foldr_max_le n w h)]

theorem bincount_length (n : ℕ) (w : List ℕ) (h : ∀ d ∈ w, d < n) :
    (bincount n w).length = n := by
  rw [bincount_eq n w h]
  simp

theorem sum_map_add_q (l : List ℕ) (f g : ℕ → ℚ) :
    (l.map (fun i => f i + g i)).sum = (l.map f).sum + (l.map g).sum := by
  induction l with
  | nil => simp
  | cons a t ih =>
    simp [ih]
    ring

theorem indicator_sum_zero (d : ℕ) (l : List ℕ) (h : d ∉ l) :
    (l.map (fun i => if i = d then (1:ℚ) else 0)).sum = 0 := by
  induction l with
  | nil => simp
  | cons a t ih =>
    have hne : a ≠ d := by
      rintro rfl
      exact h (by simp)
    simp [hne, ih (fun hm => h (by simp [hm]))]

theorem indicator_sum_one (d : ℕ) (l : List ℕ) (hn : l.Nodup) (hm : d ∈ l) :
    (l.map (fun i => if i = d then (1:ℚ) else 0)).sum = 1 := by
  induction l with
  | nil => simp at hm
  | cons a t ih =>
    rcases List.mem_cons.mp hm with rfl | hm2
    · have hni : d ∉ t := (List.nodup_cons.mp hn).1
      simp [indicator_sum_zero d t hni]
    · have hna : a ≠ d := by
        rintro rfl
        exact (List.nodup_cons.mp hn).1 hm2
      simp [hna, ih (List.nodup_cons.mp hn).2 hm2]

theorem counts_sum (n : ℕ) (w : List ℕ) (h : ∀ d ∈ w, d < n) :
    ((List.range n).map (fun i => (w.count i : ℚ))).sum = w.length := by
  induction w with
  | nil => simp
  | cons d t ih =>
    have hrw : (List.range n).map (fun i => ((d :: t).count i : ℚ)) =
        (List.range n).map (fun i => (t.count i : ℚ) + (if i = d then (1:ℚ) else 0)) := by
      apply List.map_congr_left
      intro i _
      rw [List.count_cons]
      push_cast
      rcases eq_or_ne i d with rfl | hne
      · simp
      · simp [hne, Ne.symm hne]
    rw [hrw, sum_map_add_q, ih (fun x hx => h x (by simp [hx])),
      indicator_sum_one d (List.range n) (List.nodup_range n)
        (List.mem_range.mpr (h d (by simp)))]
    push_cast [List.length_cons]
    ring

theorem bincount_sum (n : ℕ) (w : List ℕ) (h : ∀ d ∈ w, d < n) :
    (bincount n w).sum = w.length := by
  rw [bincount_eq n w h]
  exact counts_sum n w h

theorem npIsclose_one : npIsclose 1 1 := by
  norm_num [npIsclose]

theorem chi_square_statistic_ok (chi2cdf : ℚ → ℕ → ℚ) (observed expected : List ℚ)
    (h1 : observed.length = expected.length) (h2 : ¬ ∃ e ∈ expected, e ≤ 0) :
    ∃ sp : ℚ × ℚ, chi_square_statistic chi2cdf observed expected = .ok sp := by
  unfold chi_square_statistic
  rw [if_neg (by simp [h1]), if_neg h2]
  exact ⟨_, rfl⟩

theorem entropy_gap_ok (log2 : ℚ → ℚ) (emp base : List ℚ)
    (h1 : emp.length = base.length) (h2 : npIsclose emp.sum 1)
    (h3 : npIsclose base.sum 1) :
    ∃ g : ℚ, entropy_gap log2 emp base = .ok g := by
  unfold entropy_gap
  rw [if_neg (by simp [h1]), if_neg (not_not_intro h2), if_neg (not_not_intro h3)]
  exact ⟨_, rfl⟩

theorem collectE_ok_rel {α β : Type} (f : α → Except Err β) :
    ∀ l : List α, (∀ x ∈ l, ∃ b, f x = .ok b) →
      ∃ bs, collectE f l = .ok bs ∧ List.Forall₂ (fun x b => f x = .ok b) l bs := by
  intro l
  induction l with
  | nil => exact fun _ => ⟨[], rfl, List.Forall₂.nil⟩
  | cons a t ih =>
    intro h
    obtain ⟨b, hb⟩ := h a (by simp)
    obtain ⟨bs, hbs, hrel⟩ := ih (fun x hx => h x (by simp [hx]))
    exact ⟨b :: bs, by simp [collectE, hb, hbs], List.Forall₂.cons hb hrel⟩

theorem rollingBody_step (chi2cdf : ℚ → ℕ → ℚ) (log2 : ℚ → ℚ) (draws : List ℕ)
    (baseline : List ℚ) (w k : ℕ) (rec : AnomalyRecord)
    (h : rollingBody chi2cdf log2 draws baseline w k = .ok rec) :
    rec.step = w - 1 + k := by
  simp only [rollingBody] at h
  split at h
  · exact absurd h (by simp)
  · split at h
    · exact absurd h (by simp)
    · obtain rfl := Except.ok.inj h
      rfl

theorem rollingBody_ok (chi2cdf : ℚ → ℕ → ℚ) (log2 : ℚ → ℚ) (draws : List ℕ)
    (baseline : List ℚ) (w k : ℕ)
    (hb : ∀ b ∈ baseline, 0 < b) (hbsum : npIsclose baseline.sum 1) (hw : 1 < w)
    (hkw : k + w ≤ draws.length)
    (hdr : ∀ d ∈ draws, d < baseline.length) :
    ∃ rec, rollingBody chi2cdf log2 draws baseline w k = .ok rec := by
  have helem : ∀ d ∈ (draws.drop k).take w, d < baseline.length := fun d hd =>
    hdr d (List.mem_of_mem_drop (List.mem_of_mem_take hd))
  have hwl : ((draws.drop k).take w).length = w := by
    simp only [List.length_take, List.length_drop]
    omega
  have hcl : (bincount baseline.length ((draws.drop k).take w)).length =
      baseline.length := bincount_length _ _ helem
  have hcs : (bincount baseline.length ((draws.drop k).take w)).sum = w := by
    rw [bincount_sum _ _ helem, hwl]
  have hwq : (w:ℚ) ≠ 0 := Nat.cast_ne_zero.mpr (by omega)
  have hexp : ¬ ∃ e ∈ baseline.map (fun b => b * (w:ℚ)), e ≤ 0 := by
    rintro ⟨e, he, hle⟩
    rcases List.mem_map.mp he with ⟨b, hbm, rfl⟩
    have hwpos : (0:ℚ) < w := by
      have : 0 < w := by omega
      exact_mod_cast this
    have := mul_pos (hb b hbm) hwpos
    linarith
  obtain ⟨sp, hsp⟩ := chi_square_statistic_ok chi2cdf
    (bincount baseline.length ((draws.drop k).take w))
    (baseline.map (fun b => b * (w:ℚ))) (by simp [hcl]) hexp
  have hes : ((bincount baseline.length ((draws.drop k).take w)).map
      (fun c => c / (w:ℚ))).sum = 1 := by
    rw [sum_map_div, hcs]
    exact div_self hwq
  obtain ⟨eg, heg⟩ := entropy_gap_ok log2
    ((bincount baseline.length ((draws.drop k).take w)).map (fun c => c / (w:ℚ)))
    baseline (by simp [hcl]) (by rw [hes]; exact npIsclose_one) hbsum
  refine ⟨⟨w - 1 + k, sp.1, sp.2, eg⟩, ?_⟩
  simp only [rollingBody]
  rw [hsp, heg]

/- ------------------------------------------------------------------ -/
/- Claim theorems -/
/- ------------------------------------------------------------------ -/

/-- C1: for every outcome count and beta vector of matching length whose
adjusted masses are all non-negative with positive total,
`wamecu_probabilities` succeeds and returns a vector whose entries are all
non-negative and whose sum is exactly 1 (hence within tolerance 1e-9 of 1). -/
theorem wamecu_probabilities_valid (n : ℕ) (beta : List ℚ)
    (hlen : beta.length = n)
    (hnn : ∀ a ∈ adjustedMasses n beta, 0 ≤ a)
    (hpos : 0 < (adjustedMasses n beta).sum) :
    ∃ p, wamecu_probabilities n beta = .ok p ∧
      (∀ x ∈ p, 0 ≤ x) ∧ p.sum = 1 ∧ |p.sum - 1| ≤ 1/1000000000 := by
  have hno : ¬ ∃ a ∈ adjustedMasses n beta, a < 0 := by
    push_neg
    exact fun a ha => (hnn a ha)
  refine ⟨(adjustedMasses n beta).map (fun a => a / (adjustedMasses n beta).sum),
    ?_, ?_, ?_, ?_⟩
  · simp [wamecu_probabilities, hlen, hno, hpos.not_le]
  · intro x hx
    rcases List.mem_map.mp hx with ⟨a, ha, rfl⟩
    exact div_nonneg (hnn a ha) hpos.le
  · exact sum_div_self_sum _ (ne_of_gt hpos)
  · rw [sum_div_self_sum _ (ne_of_gt hpos)]
    simp

/-- C1 witness: the theorem applied at `n = 2`, `beta = [1/5, -1/5]`. -/
theorem wamecu_probabilities_valid_witness :
    ∃ p, wamecu_probabilities 2 [1/5, -1/5] = .ok p ∧
      (∀ x ∈ p, 0 ≤ x) ∧ p.sum = 1 ∧ |p.sum - 1| ≤ 1/1000000000 :=
  wamecu_probabilities_valid 2 [1/5, -1/5] (by simp)
    (by intro a ha; simp [adjustedMasses] at ha; rcases ha with h | h <;> rw [h] <;> norm_num)
    (by simp [adjustedMasses]; norm_num)

/-- C2: `wamecu_probabilities` fails exactly when the beta length mismatches
`n`, some adjusted mass is strictly negative, or the total adjusted mass is
non-positive; and whenever the length matches and some adjusted mass is
negative the error is the InvalidBias kind (`negativeAdjustedMass`).  No
partial result exists: the model returns either one error or one vector. -/
theorem wamecu_probabilities_error_iff (n : ℕ) (beta : List ℚ) :
    ((wamecu_probabilities n beta).isOk = false ↔
      (beta.length ≠ n ∨ (∃ a ∈ adjustedMasses n beta, a < 0) ∨
        (adjustedMasses n beta).sum ≤ 0)) ∧
    (beta.length = n → (∃ a ∈ adjustedMasses n beta, a < 0) →
      wamecu_probabilities n beta = .error .negativeAdjustedMass) := by
  constructor
  · by_cases h1 : beta.length ≠ n
    · simp [wamecu_probabilities, h1, Except.isOk, Except.toBool]
    · by_cases h2 : ∃ a ∈ adjustedMasses n beta, a < 0
      · simp [wamecu_probabilities, h1, h2, Except.isOk, Except.toBool]
      · by_cases h3 : (adjustedMasses n beta).sum ≤ 0
        · simp [wamecu_probabilities, h1, h2, h3, Except.isOk, Except.toBool]
        · simp [wamecu_probabilities, h1, h2, h3, Except.isOk, Except.toBool]
  · intro hlen hneg
    simp [wamecu_probabilities, hlen, hneg]

/-- C2 witness: at `n = 2`, `beta = [-3, 0]` the adjusted mass of outcome 0 is
negative and the call returns the InvalidBias-kind error. -/
theorem wamecu_probabilities_error_iff_witness :
    wamecu_probabilities 2 [-3, 0] = .error .negativeAdjustedMass :=
  (wamecu_probabilities_error_iff 2 [-3, 0]).2 (by simp)
    (by norm_num [adjustedMasses])

/-- C3: the two implementations of the probability law agree.  They fail on
exactly the same inputs, and on any input where both succeed, corresponding
entries differ by at most 2e-9 (the skipped renormalization only matters when
the total is already within relative 1e-9 of 1). -/
theorem wamecu_two_laws_agree (n : ℕ) (beta : List ℚ) :
    (wamecu_probabilities n beta).isOk = (wamecu_probabilities_sim n beta).isOk ∧
    (∀ u s, wamecu_probabilities n beta = .ok u →
      wamecu_probabilities_sim n beta = .ok s →
      u.length = s.length ∧ ∀ i : ℕ, |u.getD i 0 - s.getD i 0| ≤ 2/1000000000) := by
  by_cases h1 : beta.length ≠ n
  · constructor
    · simp [wamecu_probabilities, wamecu_probabilities_sim, h1]
    · intro u s hu
      simp [wamecu_probabilities, h1] at hu
  · by_cases h2 : ∃ a ∈ adjustedMasses n beta, a < 0
    · constructor
      · simp [wamecu_probabilities, wamecu_probabilities_sim, h1, h2]
      · intro u s hu
        simp [wamecu_probabilities, h1, h2] at hu
    · by_cases h3 : (adjustedMasses n beta).sum ≤ 0
      · constructor
        · simp [wamecu_probabilities, wamecu_probabilities_sim, h1, h2, h3]
        · intro u s hu
          simp [wamecu_probabilities, h1, h2, h3] at hu
      · have hpos : 0 < (adjustedMasses n beta).sum := lt_of_not_le h3
        have hnn : ∀ x ∈ adjustedMasses n beta, 0 ≤ x := by
          intro x hx
          by_contra hxn
          exact h2 ⟨x, hx, lt_of_not_le hxn⟩
        have hu : wamecu_probabilities n beta =
            .ok ((adjustedMasses n beta).map (fun a => a / (adjustedMasses n beta).sum)) := by
          simp [wamecu_probabilities, h1, h2, h3]
        by_cases hc : mathIsclose (adjustedMasses n beta).sum 1
        · have hs : wamecu_probabilities_sim n beta = .ok (adjustedMasses n beta) := by
            simp [wamecu_probabilities_sim, h1, h2, h3, hc]
          refine ⟨by rw [hu, hs]; rfl, ?_⟩
          intro u s hu' hs'
          rw [hu] at hu'
          rw [hs] at hs'
          obtain rfl := Except.ok.inj hu'
          obtain rfl := Except.ok.inj hs'
          refine ⟨by simp, ?_⟩
          intro i
          rw [getD_map_div]
          exact renorm_entry_close _ _ (getD_nonneg _ i hnn) (getD_le_sum _ i hnn) hpos hc
        · have hs : wamecu_probabilities_sim n beta =
              .ok ((adjustedMasses n beta).map (fun a => a / (adjustedMasses n beta).sum)) := by
            simp [wamecu_probabilities_sim, h1, h2, h3, hc]
          refine ⟨by rw [hu, hs], ?_⟩
          intro u s hu' hs'
          rw [hu] at hu'
          rw [hs] at hs'
          obtain rfl := Except.ok.inj hu'
          obtain rfl := Except.ok.inj hs'
          exact ⟨rfl, fun i => by simp; norm_num⟩

/-- C3 witness: at `n = 2`, `beta = [1/10, -1/10]` both laws succeed with
result `[11/20, 9/20]` and entry 0 differs by at most 2e-9. -/
theorem wamecu_two_laws_agree_witness :
    (wamecu_probabilities 2 [1/10, -1/10]).isOk =
      (wamecu_probabilities_sim 2 [1/10, -1/10]).isOk ∧
    |([(11:ℚ)/20, 9/20].getD 0 0) - ([(11:ℚ)/20, 9/20].getD 0 0)| ≤ 2/1000000000 := by
  have hadj : adjustedMasses 2 [1/10, -1/10] = [11/20, 9/20] := by
    norm_num [adjustedMasses]
  have hu : wamecu_probabilities 2 [1/10, -1/10] = .ok [11/20, 9/20] := by
    rw [wamecu_probabilities, if_neg (by norm_num), hadj]
    rw [if_neg (by norm_num), if_neg (by norm_num)]
    norm_num
  have hs : wamecu_probabilities_sim 2 [1/10, -1/10] = .ok [11/20, 9/20] := by
    rw [wamecu_probabilities_sim, if_neg (by norm_num), hadj]
    rw [if_neg (by norm_num), if_neg (by norm_num),
      if_neg (by norm_num [mathIsclose])]
  exact ⟨(wamecu_two_laws_agree 2 [1/10, -1/10]).1,
    ((wamecu_two_laws_agree 2 [1/10, -1/10]).2 [11/20, 9/20] [11/20, 9/20] hu hs).2 0⟩

/-- C9: the documented precondition `n_outcomes ≥ 2` is not enforced by
`wamecu_probabilities`: every call with `n = 1`, a single bias coefficient and
positive adjusted mass succeeds (no config error), returning exactly `[1]`. -/
theorem wamecu_probabilities_one_outcome (b : ℚ)
    (h : 0 < (adjustedMasses 1 [b]).sum) :
    wamecu_probabilities 1 [b] = .ok [1] := by
  have hadj : adjustedMasses 1 [b] = [1 + b] := by
    simp [adjustedMasses]
  have hb : (0:ℚ) < 1 + b := by simpa [hadj] using h
  simp [wamecu_probabilities, hadj, hb.not_lt, hb.not_le, div_self hb.ne']

/-- C9 witness: `wamecu_probabilities 1 [0] = ok [1]`. -/
theorem wamecu_probabilities_one_outcome_witness :
    wamecu_probabilities 1 [0] = .ok [1] :=
  wamecu_probabilities_one_outcome 0 (by norm_num [adjustedMasses])

/-- C7: for every config accepted by the validation of `beta_drift`
(`n_outcomes ≥ 2`, `n_steps > 0`, `0 < clip < 1`) and every realization of the
noise and sinusoid inputs, every element of every emitted bias vector lies in
`[-clip, clip]`. -/
theorem beta_drift_within_clip (cfg : BetaDriftConfig) (noise : ℕ → List ℚ)
    (sinus : ℕ → ℚ) (betas : List (List ℚ))
    (h : beta_drift cfg noise sinus = .ok betas) :
    ∀ v ∈ betas, ∀ x ∈ v, -cfg.clip ≤ x ∧ x ≤ cfg.clip := by
  unfold beta_drift beta_drift_trace at h
  by_cases h1 : cfg.n_outcomes < 2
  · simp [h1, Except.map] at h
  by_cases h2 : cfg.n_steps = 0
  · simp [h1, h2, Except.map] at h
  by_cases h3 : 0 < cfg.clip ∧ cfg.clip < 1
  case neg => simp [h1, h2, h3, Except.map] at h
  rw [if_neg h1, if_neg h2, if_neg (not_not_intro h3)] at h
  simp only [Except.map] at h
  have hb := Except.ok.inj h
  intro v hv x hx
  rw [← hb] at hv
  rcases List.mem_map.mp hv with ⟨pr, hpr, rfl⟩
  obtain ⟨pre, hpre⟩ := driftAux_snd_mem cfg noise sinus _ _ _ pr hpr
  rw [hpre] at hx
  rcases List.mem_map.mp hx with ⟨y, hy, rfl⟩
  exact clipTo_mem _ _ y (by linarith [h3.1])

/-- C7 witness: a one-step run with `clip = 1/2` and noise `[1, -1]`; the
emitted vector is the clipped `[1/2, -1/2]`, and the theorem applied to its
first entry bounds it by `[-clip, clip]`. -/
theorem beta_drift_within_clip_witness :
    -(⟨1, 2, 0, 0, 0, 1/2, none⟩ : BetaDriftConfig).clip ≤ (1:ℚ)/2 ∧
      (1:ℚ)/2 ≤ (⟨1, 2, 0, 0, 0, 1/2, none⟩ : BetaDriftConfig).clip :=
  beta_drift_within_clip ⟨1, 2, 0, 0, 0, 1/2, none⟩ (fun _ => [1, -1]) (fun _ => 0)
    [[(1:ℚ)/2, -(1/2)]]
    (by
      rw [beta_drift, beta_drift_trace, if_neg (by norm_num), if_neg (by norm_num),
        if_neg (not_not_intro (by norm_num))]
      norm_num [driftAux, driftPre, mean, clipTo, addHead, Except.map,
        List.replicate, min_def, max_def])
    [(1:ℚ)/2, -(1/2)] (by simp) ((1:ℚ)/2) (by simp)

/-- C5 counterexample: a valid config with the sinusoid enabled
(`sin_period = 4 > 0`, `sin_amplitude = 1/2 ≠ 0`) where the pre-clip bias
vector at step 0 is `[1/2, 0]`, whose sum `1/2` is not approximately 0 (the
sinusoidal term is added AFTER the mean-subtraction).  The sinusoid input
value 1/2 is realizable as `sin_amplitude * sin(phase)` with `phase = π/2`. -/
theorem beta_drift_preclip_nonzero_cex :
    beta_drift_trace ⟨1, 2, 0, 1/2, 4, 95/100, none⟩ (fun _ => [0, 0]) (fun _ => 1/2) =
      .ok [([1/2, 0], [1/2, 0])] ∧
    ¬ |([(1:ℚ)/2, 0].sum)| ≤ 1/1000000000 := by
  constructor
  · rw [beta_drift_trace, if_neg (by norm_num), if_neg (by norm_num),
      if_neg (not_not_intro (by norm_num))]
    norm_num [driftAux, driftPre, mean, clipTo, addHead,
      List.replicate, min_def, max_def]
  · norm_num [abs_of_pos]

/-- C5 (amended): in `beta_drift`, at every step, the mean-subtraction makes
the running vector exactly zero-sum, but the sinusoidal term is added after
the re-centering, so the pre-clip sum equals the step's sinusoidal increment
when the sinusoid is enabled, and 0 when it is disabled. -/
theorem beta_drift_preclip_sum (cfg : BetaDriftConfig) (noise : ℕ → List ℚ)
    (sinus : ℕ → ℚ) (trace : List (List ℚ × List ℚ))
    (hnoise : ∀ t, (noise t).length = cfg.n_outcomes)
    (h : beta_drift_trace cfg noise sinus = .ok trace) :
    ∀ j, j < trace.length →
      ((trace.getD j ([], [])).1).sum =
        (if 0 < cfg.sin_period ∧ cfg.sin_amplitude ≠ 0 then sinus j else 0) := by
  unfold beta_drift_trace at h
  by_cases h1 : cfg.n_outcomes < 2
  · simp [h1] at h
  by_cases h2 : cfg.n_steps = 0
  · simp [h1, h2] at h
  by_cases h3 : 0 < cfg.clip ∧ cfg.clip < 1
  case neg => simp [h1, h2, h3] at h
  rw [if_neg h1, if_neg h2, if_neg (not_not_intro h3)] at h
  have hb := Except.ok.inj h
  have hn : 2 ≤ cfg.n_outcomes := not_lt.mp h1
  intro j hj
  rw [← hb] at hj ⊢
  rw [driftAux_length] at hj
  have := driftAux_pre_sum cfg noise sinus hn hnoise cfg.n_steps 0
    (List.replicate cfg.n_outcomes 0) (by simp) j hj
  simpa using this

/-- C5 witness for the amended statement: sinusoid enabled, zero noise; the
pre-clip sum at step 0 equals the sinusoidal increment 1/4. -/
theorem beta_drift_preclip_sum_witness :
    (([([(1:ℚ)/4, 0], [(1:ℚ)/4, 0])] : List (List ℚ × List ℚ)).getD 0 ([], [])).1.sum =
      (if (0:ℤ) < 4 ∧ ((1:ℚ)/3) ≠ 0 then (1:ℚ)/4 else 0) :=
  beta_drift_preclip_sum ⟨1, 2, 0, 1/3, 4, 1/2, none⟩ (fun _ => [0, 0]) (fun _ => 1/4)
    [([(1:ℚ)/4, 0], [(1:ℚ)/4, 0])] (fun _ => rfl)
    (by
      rw [beta_drift_trace, if_neg (by norm_num), if_neg (by norm_num),
        if_neg (not_not_intro (by norm_num))]
      norm_num [driftAux, driftPre, mean, clipTo, addHead,
        List.replicate, min_def, max_def])
    0 (by norm_num)

/-- C10: on the all-zero probability vector with `n_trials = 1`,
`simulate_draws` passes its non-negativity check, the total 0 is not
`np.isclose` to 1, and the silent renormalization divides by the zero total
(no eager failure occurs; the renormalization flag is true and the sum at
that point is 0).  In the rational model `0 / 0 = 0`, so the vector handed to
the sampler is `[0, 0]`; in `numpy` the same division produces NaN, caught
only later inside `rng.choice`. -/
theorem simulate_draws_div_by_zero :
    ([(0:ℚ), 0].sum = 0 ∧ ¬ npIsclose [(0:ℚ), 0].sum 1) ∧
    simulate_draws_prep [0, 0] 1 = .ok ([0, 0], true) := by
  constructor
  · constructor
    · simp
    · norm_num [npIsclose]
  · rw [simulate_draws_prep, if_neg (by norm_num)]
    rw [if_pos (by norm_num [npIsclose]), if_neg (by norm_num)]
    norm_num

/-- C4 counterexample: with the valid configuration `process_var = 100`,
`observation_var = 100`, `n_outcomes = 2` and the valid observation sequence
`[0, 0]`, the per-outcome variance held by `kalman_tracker` after step 2
(120200/2003, about 60.0) is strictly larger than after step 1 (40100/801,
about 50.1): the variance is NOT non-increasing for every valid config. -/
theorem kalman_variance_increases_cex :
    kalman_covariances [0, 0] 2 100 100 none =
      .ok [[40100/801, 40100/801], [120200/2003, 120200/2003]] ∧
    ¬ ((120200:ℚ)/2003 ≤ 40100/801) := by
  constructor
  · rw [kalman_covariances, kalman_tracker_full, if_neg (by norm_num),
      if_neg (by push_neg; constructor <;> norm_num)]
    norm_num [kalmanLoop, kalmanStep, mean, clipTo, Except.map,
      List.range_succ, List.replicate, min_def, max_def]
  · norm_num

/-- C4 (amended): within each `kalman_tracker` step the update phase never
increases the variance: every post-update variance component is at most the
corresponding predicted (post process-noise) variance `cov_i + process_var`.
The full predict-then-update step can nonetheless increase the held variance
when the re-injected process noise dominates (see the counterexample). -/
theorem kalman_update_no_variance_increase (n : ℕ) (q r : ℚ)
    (state cov : List ℚ) (o : ℕ)
    (hq : 0 < q) (hr : 0 < r) (hcov : ∀ c ∈ cov, 0 ≤ c) :
    List.Forall₂ (· ≤ ·) (kalmanStep n q r state cov o).2
      (cov.map (fun c => c + q)) := by
  rw [kalmanStep_snd]
  apply forall₂_le_map
  intro c hc
  have hcq : 0 < c + q := by have := hcov c hc; linarith
  have hcqr : 0 < c + q + r := by linarith
  have hg : 0 ≤ (c + q) / ((c + q) + r) := div_nonneg hcq.le hcqr.le
  have hgm : 0 ≤ (c + q) / ((c + q) + r) * (c + q) := mul_nonneg hg hcq.le
  nlinarith [hgm]

/-- C4 witness for the amended statement: one step at `n = 2`, `q = r = 1`,
initial covariance `[1/4, 1/4]`. -/
theorem kalman_update_no_variance_increase_witness :
    List.Forall₂ (· ≤ ·) (kalmanStep 2 1 1 [0, 0] [1/4, 1/4] 0).2
      ([(1:ℚ)/4, 1/4].map (fun c => c + 1)) :=
  kalman_update_no_variance_increase 2 1 1 [0, 0] [1/4, 1/4] 0
    (by norm_num) (by norm_num) (by norm_num)

/-- C6: every entry of every beta vector emitted by `ewma_estimator` and by
`kalman_tracker` lies in `[-0.99, 0.99]` (finiteness is automatic in the
exact-rational model): both loops end each step by clipping to that interval. -/
theorem estimators_beta_within_interval
    (obs1 : List ℕ) (n1 : ℕ) (a : ℚ) (init1 : Option (List ℚ)) (H1 : List (List ℚ))
    (obs2 : List ℕ) (n2 : ℕ) (q r : ℚ) (init2 : Option (List ℚ)) (H2 : List (List ℚ))
    (h1 : ewma_estimator obs1 n1 a init1 = .ok H1)
    (h2 : kalman_tracker obs2 n2 q r init2 = .ok H2) :
    (∀ v ∈ H1, ∀ x ∈ v, -(99/100) ≤ x ∧ x ≤ 99/100) ∧
    (∀ v ∈ H2, ∀ x ∈ v, -(99/100) ≤ x ∧ x ≤ 99/100) := by
  constructor
  · obtain ⟨p0, hloop⟩ := ewma_estimator_ok_loop obs1 n1 a init1 H1 h1
    intro v hv x hx
    obtain ⟨b, rfl⟩ := ewmaLoop_clip n1 a obs1 p0 H1 hloop v hv
    exact mem_clip_map hx
  · unfold kalman_tracker at h2
    cases hfull : kalman_tracker_full obs2 n2 q r init2 with
    | error e =>
      rw [hfull] at h2
      exact absurd h2 (by simp [Except.map])
    | ok T =>
      rw [hfull] at h2
      simp only [Except.map] at h2
      obtain rfl := Except.ok.inj h2
      obtain ⟨s0, c0, hloop⟩ := kalman_tracker_full_ok_loop obs2 n2 q r init2 T hfull
      intro v hv x hx
      rcases List.mem_map.mp hv with ⟨pr, hpr, rfl⟩
      obtain ⟨b, hb⟩ := kalmanLoop_clip n2 q r obs2 s0 c0 T hloop pr hpr
      rw [hb] at hx
      exact mem_clip_map hx

/-- C6 witness: one-observation runs of both estimators at `n = 2`; the
emitted vectors are `[[1/2, -1/2]]` (EWMA, alpha = 1/2) and
`[[13/31, -13/31]]` (Kalman, q = 1/100, r = 1/20), and the theorem applies. -/
theorem estimators_beta_within_interval_witness :
    (∀ v ∈ [[(1:ℚ)/2, -(1/2)]], ∀ x ∈ v, -(99/100) ≤ x ∧ x ≤ 99/100) ∧
    (∀ v ∈ [[(13:ℚ)/31, -(13/31)]], ∀ x ∈ v, -(99/100) ≤ x ∧ x ≤ 99/100) :=
  estimators_beta_within_interval [0] 2 (1/2) none [[(1:ℚ)/2, -(1/2)]]
    [0] 2 (1/100) (1/20) none [[(13:ℚ)/31, -(13/31)]]
    (by
      rw [ewma_estimator, if_neg (by norm_num),
        if_neg (not_not_intro (by norm_num))]
      norm_num [ewmaLoop, oneHot, mean, clipTo, List.replicate,
        List.range_succ, min_def, max_def])
    (by
      rw [kalman_tracker, kalman_tracker_full, if_neg (by norm_num),
        if_neg (by push_neg; constructor <;> norm_num)]
      norm_num [kalmanLoop, kalmanStep, mean, clipTo, Except.map,
        List.range_succ, List.replicate, min_def, max_def])

/-- C8 counterexample: the baseline `[0, 1/2, 1/2]` is a valid distribution
(no negative entry, sum exactly 1) and passes the function's own baseline
validation, yet with draws `[1, 2, 1, 2]` and window size 2 the expected
counts of the first window contain `0 * 2 = 0`, so `chi_square_statistic`
raises `ValueError("expected counts must be positive")` and
`rolling_anomaly_scores` produces zero records instead of
`len(draws) - window_size + 1 = 3`. -/
theorem rolling_zero_baseline_cex :
    (¬ ∃ b ∈ [(0:ℚ), 1/2, 1/2], b < 0) ∧ [(0:ℚ), 1/2, 1/2].sum = 1 ∧
    rolling_anomaly_scores (fun _ _ => 0) (fun _ => 0) [1, 2, 1, 2] [0, 1/2, 1/2] 2 =
      .error .nonpositiveExpected := by
  refine ⟨by push_neg; norm_num, by norm_num, ?_⟩
  have hcounts : bincount ([(0:ℚ), 1/2, 1/2]).length
      ((([1, 2, 1, 2] : List ℕ).drop 0).take 2) = [0, 1, 1] := by
    have hwindow : (([1, 2, 1, 2] : List ℕ).drop 0).take 2 = [1, 2] := rfl
    have hblen : ([(0:ℚ), 1/2, 1/2]).length = 3 := rfl
    rw [hwindow, hblen, bincount_eq 3 [1, 2] (by decide)]
    norm_num [List.range_succ]
  have hcs : chi_square_statistic (fun _ _ => 0) [(0:ℚ), 1, 1]
      ([(0:ℚ), 1/2, 1/2].map (fun b => b * ((2:ℕ) : ℚ))) = .error .nonpositiveExpected := by
    rw [chi_square_statistic, if_neg (by norm_num), if_pos (by norm_num)]
  have hbody : rollingBody (fun _ _ => 0) (fun _ => 0) [1, 2, 1, 2] [0, 1/2, 1/2] 2 0 =
      .error .nonpositiveExpected := by
    simp only [rollingBody]
    rw [hcounts, hcs]
  rw [rolling_anomaly_scores,
    if_neg (by push_neg; exact ⟨by norm_num, by norm_num [npIsclose]⟩),
    if_neg (by norm_num), if_neg (by norm_num)]
  have hrange : List.range (([1, 2, 1, 2] : List ℕ).length - 2 + 1) = [0, 1, 2] := rfl
  rw [hrange]
  simp only [collectE]
  rw [hbody]

/-- C8 (amended): for every draw sequence (entries in range), STRICTLY
positive baseline distribution, and window size `w` with
`1 < w ≤ len(draws)`, `rolling_anomaly_scores` succeeds, produces exactly
`len(draws) - w + 1` diagnostic records, and the k-th record's step index is
`w - 1 + k`, the last absolute index of its window.  Strict positivity is
necessary: a valid baseline with a zero entry makes every window's expected
counts contain a zero, so the first window's chi-square test raises and no
records are produced (see the counterexample). -/
theorem rolling_count_and_step (chi2cdf : ℚ → ℕ → ℚ) (log2 : ℚ → ℚ)
    (draws : List ℕ) (baseline : List ℚ) (w : ℕ)
    (hb : ∀ b ∈ baseline, 0 < b)
    (hsum : npIsclose baseline.sum 1)
    (hw : 1 < w) (hlen : w ≤ draws.length)
    (hdr : ∀ d ∈ draws, d < baseline.length) :
    ∃ records, rolling_anomaly_scores chi2cdf log2 draws baseline w = .ok records ∧
      records.length = draws.length - w + 1 ∧
      ∀ j, j < records.length →
        (records.getD j ⟨0, 0, 0, 0⟩).step = w - 1 + j := by
  have hv1 : ¬ ((∃ b ∈ baseline, b < 0) ∨ ¬ npIsclose baseline.sum 1) := by
    push_neg
    exact ⟨fun b hbm => (hb b hbm).le, hsum⟩
  have hbody : ∀ k ∈ List.range (draws.length - w + 1),
      ∃ rec, rollingBody chi2cdf log2 draws baseline w k = .ok rec := by
    intro k hk
    have hkr := List.mem_range.mp hk
    exact rollingBody_ok chi2cdf log2 draws baseline w k hb hsum hw (by omega) hdr
  obtain ⟨records, hrec, hrel⟩ := collectE_ok_rel _ _ hbody
  have hlenr : records.length = draws.length - w + 1 := by
    rw [← hrel.length_eq, List.length_range]
  refine ⟨records, ?_, hlenr, ?_⟩
  · unfold rolling_anomaly_scores
    rw [if_neg hv1, if_neg (by omega), if_neg (by omega)]
    exact hrec
  · intro j hj
    have hj2 : j < (List.range (draws.length - w + 1)).length := by
      rw [List.length_range]
      omega
    have hR := hrel.get hj2 hj
    simp only [List.get_eq_getElem, List.getElem_range] at hR
    have hstep := rollingBody_step chi2cdf log2 draws baseline w j _ hR
    rw [List.getD_eq_getElem _ _ hj]
    exact hstep

/-- C8 witness: draws `[0, 1, 0, 1]`, uniform baseline `[1/2, 1/2]`,
window size 2, with trivial CDF/log oracles: 3 records, steps `1 + j`. -/
theorem rolling_count_and_step_witness :
    ∃ records, rolling_anomaly_scores (fun _ _ => 0) (fun _ => 0)
        [0, 1, 0, 1] [1/2, 1/2] 2 = .ok records ∧
      records.length = [0, 1, 0, 1].length - 2 + 1 ∧
      ∀ j, j < records.length →
        (records.getD j ⟨0, 0, 0, 0⟩).step = 2 - 1 + j :=
  rolling_count_and_step (fun _ _ => 0) (fun _ => 0) [0, 1, 0, 1] [1/2, 1/2] 2
    (by norm_num) (by norm_num [npIsclose]) (by norm_num) (by norm_num)
    (by simp)

end WinBig
